import Mathlib

/-!
Verification of the WhisperNote subtitle-construction core
(`whispernote/subtitle.py`, `whispernote/models/Subtitles.py`,
`whispernote/models/SubtitleElement.py`) against its natural-language
specification.

Python strings are modelled as Lean `String` (a wrapper around `List Char`);
the Python string primitives used by the source (`str.split` with a one-char
separator, `str.strip`, `s[-1]`, `int(...)` truncation) are modelled at the
character-list level below.  Python `float` arithmetic over the magnitudes
involved is idealized as exact rational arithmetic (`ℚ`).  Pandas dataframes
are modelled as lists of row structures; a column-wise pandas operation is
modelled as the corresponding list operation.
-/

namespace WhisperNote

/-! ### Python string primitives -/

/-- Python `s.split(sep)` for a one-character separator, at the character-list
level: splits on every occurrence of `sep`, keeping empty fragments, so
`splitChar ',' "".data = [[]]` just as `"".split(",") == [""]` in Python. -/
def splitChar (sep : Char) : List Char → List (List Char)
  | [] => [[]]
  | c :: cs =>
    let rest := splitChar sep cs
    if c = sep then [] :: rest
    else
      match rest with
      | r :: rs => (c :: r) :: rs
      | [] => [[c]]

/-- Python `s.strip()`: drop whitespace from both ends of the string. -/
def pyStrip (s : String) : String :=
  ⟨(((s.data.dropWhile Char.isWhitespace).reverse.dropWhile Char.isWhitespace)).reverse⟩

/-- Python `int(x)` on a real number: truncation toward zero. -/
def pyInt (q : ℚ) : ℤ :=
  if 0 ≤ q then ⌊q⌋ else ⌈q⌉

/-- Python `s.split(sep)` returning strings. -/
def pySplit (sep : Char) (s : String) : List String :=
  (splitChar sep s.data).map (fun l => ⟨l⟩)

/-- `len(s.split(" "))` — the word count used by the Segment Builder's
merge condition (`Subtitles.py` line 81). -/
def wordCount (s : String) : ℕ :=
  (splitChar ' ' s.data).length

theorem splitChar_ne_nil (sep : Char) (l : List Char) :
    splitChar sep l ≠ [] := by
  cases l with
  | nil => simp [splitChar]
  | cons c cs =>
    simp only [splitChar]
    by_cases h : c = sep
    · simp [h]
    · simp only [h, if_false]
      cases splitChar sep cs <;> simp

theorem splitChar_length (sep : Char) (l : List Char) :
    (splitChar sep l).length = l.count sep + 1 := by
  induction l with
  | nil => simp [splitChar]
  | cons c cs ih =>
    by_cases h : c = sep
    · subst h
      simp [splitChar, ih, List.count_cons]
    · have hne : (splitChar sep cs) ≠ [] := splitChar_ne_nil sep cs
      cases hrest : splitChar sep cs with
      | nil => exact absurd hrest hne
      | cons r rs =>
        have : splitChar sep (c :: cs) = (c :: r) :: rs := by
          simp [splitChar, h, hrest]
        rw [this]
        have := ih
        rw [hrest] at this
        simpa [List.count_cons, h] using this

theorem wordCount_eq_count (s : String) :
    wordCount s = s.data.count ' ' + 1 := splitChar_length ' ' s.data

theorem data_append (s t : String) : (s ++ t).data = s.data ++ t.data := rfl

theorem pyStrip_count_le (c : Char) (s : String) :
    (pyStrip s).data.count c ≤ s.data.count c := by
  unfold pyStrip
  calc ((((s.data.dropWhile Char.isWhitespace).reverse.dropWhile
        Char.isWhitespace)).reverse).count c
      = (((s.data.dropWhile Char.isWhitespace).reverse.dropWhile
        Char.isWhitespace)).count c := List.count_reverse ..
    _ ≤ ((s.data.dropWhile Char.isWhitespace).reverse).count c :=
        ((List.dropWhile_sublist _).count_le _)
    _ = (s.data.dropWhile Char.isWhitespace).count c := List.count_reverse ..
    _ ≤ s.data.count c := ((List.dropWhile_sublist _).count_le _)

theorem wordCount_pyStrip_le (s : String) :
    wordCount (pyStrip s) ≤ wordCount s := by
  rw [wordCount_eq_count, wordCount_eq_count]
  exact Nat.add_le_add_right (pyStrip_count_le _ _) 1

theorem wordCount_append_space (a b : String) :
    wordCount (a ++ " " ++ b) = wordCount a + wordCount b := by
  rw [wordCount_eq_count, wordCount_eq_count, wordCount_eq_count,
    data_append, data_append]
  have : (" " : String).data = [' '] := rfl
  rw [this]
  simp [List.count_append, List.count_cons]
  omega

/-! ### `models/SubtitleElement.py` -/

/-- A `SubtitleElement` (`SubtitleElement.py` lines 29-60).  `index` is
`None` until `Subtitles.add_element` assigns it. -/
structure SubtitleElement where
  index : Option ℕ
  start_ms : ℤ
  end_ms : ℤ
  text : String
  speaker : String
  display_mode : String
deriving DecidableEq, Repr

/-- The `SubtitleElement.__init__` constructor: it strips the text
(`SubtitleElement.py` line 58) and leaves `index` unassigned. -/
def SubtitleElement.make (start_ms end_ms : ℤ) (text speaker : String) :
    SubtitleElement :=
  ⟨none, start_ms, end_ms, pyStrip text, speaker, "srt"⟩

/-- `ms_to_HMSms`, hours field (`SubtitleElement.py` lines 18-20):
`s = ms / 1000; h = int(s // 3600)`.  Python float arithmetic is idealized
as exact rational arithmetic; `//` on nonnegative floats is `Int.floor`
of the quotient and `int` of the already-floored value is the identity. -/
def hms_h (ms : ℕ) : ℤ := ⌊(ms : ℚ) / 1000 / 3600⌋

/-- `ms_to_HMSms`, minutes field (`SubtitleElement.py` line 21):
`m = int((s % 3600) // 60)` with `x % y = x - y * (x // y)`. -/
def hms_m (ms : ℕ) : ℤ :=
  ⌊((ms : ℚ) / 1000 - 3600 * ⌊(ms : ℚ) / 1000 / 3600⌋) / 60⌋

/-- `ms_to_HMSms`, seconds field (`SubtitleElement.py` line 22):
`s = int(s % 60)`; the operand is nonnegative so `int` truncation is
`Int.floor`. -/
def hms_s (ms : ℕ) : ℤ :=
  ⌊(ms : ℚ) / 1000 - 60 * ⌊(ms : ℚ) / 1000 / 60⌋⌋

/-- `ms_to_HMSms`, milliseconds field (`SubtitleElement.py` line 24):
`mil = int(ms % 1000)`. -/
def hms_mil (ms : ℕ) : ℤ := ((ms % 1000 : ℕ) : ℤ)

/-- Python `f"{n:0wd}"`: decimal rendering left-padded with zeros to
width `w`. -/
def zfill (w : ℕ) (n : ℤ) : String :=
  let r := toString n
  ⟨List.replicate (w - r.length) '0'⟩ ++ r

/-- `ms_to_HMSms` (`SubtitleElement.py` lines 7-26): formats `ms` as
`HH:MM:SS<delim>mmm`. -/
def ms_to_HMSms (ms : ℕ) (delim : String) : String :=
  zfill 2 (hms_h ms) ++ ":" ++ zfill 2 (hms_m ms) ++ ":" ++ zfill 2 (hms_s ms)
    ++ delim ++ zfill 3 (hms_mil ms)

/-! ### `models/Subtitles.py` -/

/-- The `Subtitles` container (`Subtitles.py` lines 9-27): a running index,
the element list and the display mode. -/
structure Subtitles where
  index : ℕ
  elements : List SubtitleElement
  display_mode : String
deriving DecidableEq, Repr

/-- `Subtitles.__init__` (`Subtitles.py` lines 24-27). -/
def Subtitles.init : Subtitles := ⟨0, [], "srt"⟩

/-- `Subtitles.add_element` (`Subtitles.py` lines 45-57): stamps the
element with the next sequential index and appends it. -/
def add_element (s : Subtitles) (e : SubtitleElement) : Subtitles :=
  { s with
    index := s.index + 1
    elements := s.elements ++ [{ e with index := some s.index }] }

/-- The `display_mode` property setter (`Subtitles.py` lines 39-43): sets
the mode on the container and on every element. -/
def set_display_mode (s : Subtitles) (v : String) : Subtitles :=
  { s with
    display_mode := v
    elements := s.elements.map (fun e => { e with display_mode := v }) }

/-- The sentence terminators (`Subtitles.py` line 71 and
`subtitle.py` line 88). -/
def stop_characters : List Char := ['.', '?', '!']

/-- `element.text[-1] not in stop_characters` (`Subtitles.py` line 80).
Python raises on an empty string; the model treats an empty text as having
no terminator, which the relevant theorems only use on nonempty texts. -/
def last_char_not_stop (s : String) : Bool :=
  match s.data.getLast? with
  | some c => !(stop_characters.contains c)
  | none => true

/-- The in-place merge of `next_element` into `element`
(`Subtitles.py` lines 83-84): concatenate the stripped texts with a
space and extend `end_ms`. -/
def join_two (e f : SubtitleElement) : SubtitleElement :=
  { e with text := pyStrip e.text ++ " " ++ pyStrip f.text, end_ms := f.end_ms }

/-- Worker for `join_adjacent_elements`: `e` is the element the Python
`while` loop's cursor currently points at (the open line), the list holds
the elements after it.  On a merge the cursor stays on the enlarged
element (`Subtitles.py` lines 83-85); otherwise the element is closed and
the cursor advances (line 87). -/
def join_adjacent_go (maxWords : ℕ) :
    SubtitleElement → List SubtitleElement → List SubtitleElement
  | e, [] => [e]
  | e, f :: rest =>
    if e.speaker = f.speaker ∧ last_char_not_stop e.text = true ∧
        wordCount e.text < maxWords then
      join_adjacent_go maxWords (join_two e f) rest
    else
      e :: join_adjacent_go maxWords f rest

/-- `Subtitles.join_adjacent_elements` (`Subtitles.py` lines 59-87) as a
function on the element list. -/
def join_adjacent_elements (maxWords : ℕ) :
    List SubtitleElement → List SubtitleElement
  | [] => []
  | e :: rest => join_adjacent_go maxWords e rest

/-! ### `subtitle.py` — Timeline Parser -/

/-- One word of the raw whisper JSON (`word["start"]`, `word["end"]` in
floating-point seconds, `word["word"]`); floats idealized as `ℚ`. -/
structure WhisperWord where
  start_s : ℚ
  end_s : ℚ
  word : String
deriving DecidableEq, Repr

/-- One segment of the raw whisper JSON (`segment["start"]`,
`segment["end"]`, `segment["text"]`, `segment["words"]`). -/
structure WhisperSegment where
  start_s : ℚ
  end_s : ℚ
  text : String
  words : List WhisperWord
deriving DecidableEq, Repr

/-- The parsed whisper JSON document: `parsed_json["segments"]`. -/
structure WhisperDoc where
  segments : List WhisperSegment
deriving DecidableEq, Repr

/-- The millisecond conversion of `process_whisper_transcript`
(`subtitle.py` lines 44-45): `int(start * 1000)`. -/
def seconds_to_ms (sec : ℚ) : ℤ :=
  pyInt (sec * 1000)

/-- `process_whisper_transcript` (`subtitle.py` lines 30-48): emits one CSV
line `f"{start_ms},{end_ms},{word}\n"` per word into a string buffer.
(The file read and `json.loads` are modelled by taking the parsed document
as input; `int(segment["start"])` on line 39 computes values that are
immediately overwritten and cannot fail on rational inputs.) -/
def process_whisper_transcript (doc : WhisperDoc) : String :=
  doc.segments.foldl
    (fun acc seg =>
      seg.words.foldl
        (fun acc w =>
          acc ++ toString (seconds_to_ms w.start_s) ++ ","
            ++ toString (seconds_to_ms w.end_s) ++ "," ++ w.word ++ "\n")
        acc)
    ""

/-- One row of `transcript_df` (columns `start`, `end`, `text`). -/
structure TranscriptRow where
  start_ms : ℤ
  end_ms : ℤ
  text : String
deriving DecidableEq, Repr

/-- Python `line.split(",", maxsplit=2)`: at most two splits, the third
fragment keeps any further commas. -/
def split_comma_max2 (s : String) : List String :=
  match splitChar ',' s.data with
  | a :: b :: c :: rest => [⟨a⟩, ⟨b⟩, ⟨List.intercalate [','] (c :: rest)⟩]
  | parts => parts.map (fun l => ⟨l⟩)

/-- `astype(int)` on a string column entry: Python `int(str)` accepts an
optionally signed decimal numeral (modulo surrounding whitespace) and
raises otherwise. -/
def parse_int_py (s : String) : Option ℤ :=
  (pyStrip s).toInt?

/-- `get_transcript_df` (`subtitle.py` lines 51-63): split the CSV text
into lines, each line on the first two commas, build the 3-column
dataframe (`pd.DataFrame` raises unless every row has exactly 3 fields),
convert `start`/`end` with `astype(int)` and strip `text`.  `none` models
a raised exception. -/
def get_transcript_df (doc : WhisperDoc) : Option (List TranscriptRow) := do
  let lines := pySplit '\n' (pyStrip (process_whisper_transcript doc))
  let data := lines.map split_comma_max2
  let rows ← data.mapM
    (fun r =>
      match r with
      | [a, b, c] => some (a, b, c)
      | _ => none)
  rows.mapM
    (fun r => do
      let s ← parse_int_py r.1
      let e ← parse_int_py r.2.1
      some ⟨s, e, pyStrip r.2.2⟩)

/-! ### `subtitle.py` — sentence grouping (`merge_transcript_json`) -/

/-- Whether a row's text ends with a sentence terminator:
`df["text"].str[-1].isin([".", "?", "!"])` — pandas yields `NaN` for an
empty string and `isin` maps `NaN` to `False`. -/
def ends_with_stop (s : String) : Bool :=
  match s.data.getLast? with
  | some c => stop_characters.contains c
  | none => false

/-- Worker for `sentence_groups`: `cur` holds the (reversed) rows of the
currently open group. -/
def sentence_groups_aux (cur : List TranscriptRow) :
    List TranscriptRow → List (List TranscriptRow)
  | [] => if cur.isEmpty then [] else [cur.reverse]
  | r :: rest =>
    if ends_with_stop r.text then
      (cur.reverse ++ [r]) :: sentence_groups_aux [] rest
    else
      sentence_groups_aux (r :: cur) rest

/-- The grouping of `merge_transcript_json` (`subtitle.py` line 90):
`df.groupby(df["text"].shift().str[-1].isin(stop_characters).cumsum())`.
The key is the running count of predecessors ending with a terminator, so
two adjacent rows share a group exactly when the earlier one does not end
with a terminator: groups are the maximal runs broken immediately after
each terminator row (and the keys are nondecreasing, so the groupby
preserves row order and an empty frame yields no groups). -/
def sentence_groups (rows : List TranscriptRow) : List (List TranscriptRow) :=
  sentence_groups_aux [] rows

/-- One entry of `merge_transcript_json`'s `json_data["segments"]`
(`subtitle.py` lines 95-113); the per-row `parts` keep the group rows. -/
structure MergedSegment where
  start_ms : ℤ
  end_ms : ℤ
  text : String
  parts : List TranscriptRow
deriving DecidableEq, Repr

/-- The segment built from one group (`subtitle.py` lines 96-112):
`group["start"].min()`, `group["end"].max()`,
`" ".join(group["text"].tolist())`.  Groups are nonempty, so the `getD`
defaults are never consulted. -/
def segment_of_group (g : List TranscriptRow) : MergedSegment :=
  { start_ms := ((g.map (fun r => r.start_ms)).min?).getD 0
    end_ms := ((g.map (fun r => r.end_ms)).max?).getD 0
    text := String.intercalate " " (g.map (fun r => r.text))
    parts := g }

/-- `merge_transcript_json` (`subtitle.py` lines 84-115) from the parsed
transcript rows to the emitted segment list. -/
def merge_transcript_segments (rows : List TranscriptRow) : List MergedSegment :=
  (sentence_groups rows).map segment_of_group

/-! ### `subtitle.py` — Speaker Attribution Engine -/

/-- One row of `diarization_df` (columns `start`, `end`, `speaker`). -/
structure DiarRow where
  start_ms : ℤ
  end_ms : ℤ
  speaker : String
deriving DecidableEq, Repr

/-- The containment test of the `.loc` mask in
`combine_transcript_diarization` (`subtitle.py` lines 148-150):
`(transcript_df["start"] >= start) & (transcript_df["end"] <= end)`. -/
def contains_row (d : DiarRow) (t : TranscriptRow) : Prop :=
  d.start_ms ≤ t.start_ms ∧ t.end_ms ≤ d.end_ms

instance (d : DiarRow) (t : TranscriptRow) : Decidable (contains_row d t) :=
  inferInstanceAs (Decidable (_ ∧ _))

/-- The speaker a transcript row holds after the diarization loop of
`combine_transcript_diarization` (`subtitle.py` lines 141-150): the
column starts as `""` and each diarization line in file order overwrites
the speaker of every transcript row it contains, so the last containing
line wins. -/
def assign_speaker (diar : List DiarRow) (t : TranscriptRow) : String :=
  diar.foldl (fun acc d => if contains_row d t then d.speaker else acc) ""

/-- One row of the combined dataframe returned by
`combine_transcript_diarization`. -/
structure CombinedRow where
  start_ms : ℤ
  end_ms : ℤ
  text : String
  speaker : String
deriving DecidableEq, Repr

/-- `combine_transcript_diarization` (`subtitle.py` lines 132-152) on the
already-parsed transcript rows (the sentence segments) and diarization
rows. -/
def combine_transcript_diarization (ts : List TranscriptRow)
    (diar : List DiarRow) : List CombinedRow :=
  ts.map (fun t => ⟨t.start_ms, t.end_ms, t.text, assign_speaker diar t⟩)

/-- Pandas `ffill` worker: `last` is the most recent valid value. -/
def ffill_aux (last : Option String) :
    List (Option String) → List (Option String)
  | [] => []
  | none :: xs => last :: ffill_aux last xs
  | some s :: xs => some s :: ffill_aux (some s) xs

/-- `df["speaker"].ffill()` (`subtitle.py` line 162). -/
def ffill (l : List (Option String)) : List (Option String) :=
  ffill_aux none l

/-- `df["speaker"].bfill()` (`subtitle.py` line 163): forward fill on the
reversed column. -/
def bfill (l : List (Option String)) : List (Option String) :=
  (ffill_aux none l.reverse).reverse

/-- `df["speaker"].replace("", float("NaN"))` (`subtitle.py` line 159):
the speaker column with empty strings turned into missing values. -/
def speakers_column (rows : List CombinedRow) : List (Option String) :=
  rows.map (fun r => if r.speaker = "" then none else some r.speaker)

/-- The speaker column after `process_combined_transcript_diarization`
(`subtitle.py` lines 155-168): replace `""` by `NaN`, `ffill`, `bfill`.
(`dropna(subset=["text"])` on line 166 never drops anything: the `text`
column is string-valued, never `NaN`.) -/
def process_speakers (rows : List CombinedRow) : List (Option String) :=
  bfill (ffill (speakers_column rows))

/-! ### `subtitle.py` — document construction and rendering passes -/

/-- The element-construction loop of `construct_diarised_subtitles`
(`subtitle.py` lines 181-190): fold `add_element` over the rows. -/
def add_elements (es : List SubtitleElement) : Subtitles :=
  es.foldl add_element Subtitles.init

/-- `generate_diarized_subtitles` (`subtitle.py` lines 194-219) after the
document has been constructed: `copy.deepcopy` the document for the srt
pass, join it; then `copy.deepcopy` the *original* document again for the
transcribeMe pass, set its display mode and join it.  Deep copies are
value copies, so each pass is modelled on its own value; the pair holds
(srt document, transcribeMe document). -/
def generate_diarized_subtitles (subtitles : Subtitles) (maxWords : ℕ) :
    Subtitles × Subtitles :=
  let subtitles_srt := subtitles
  let subtitles_srt :=
    { subtitles_srt with
      elements := join_adjacent_elements maxWords subtitles_srt.elements }
  let subtitles_tMe := subtitles
  let subtitles_tMe := set_display_mode subtitles_tMe "transcribeMe"
  let subtitles_tMe :=
    { subtitles_tMe with
      elements := join_adjacent_elements maxWords subtitles_tMe.elements }
  (subtitles_srt, subtitles_tMe)

/-! ### Claim C1 — word-count bound of the join pass -/

/-- Invariant of the join loop: if every pending element is a single word
(no space in its text) and the open line's word count is within the
bound, every emitted line's word count is within the bound. -/
theorem join_go_wc_bound (maxWords : ℕ) (hmax : 1 ≤ maxWords)
    (l : List SubtitleElement) :
    ∀ e : SubtitleElement,
      (∀ x ∈ l, x.text.data.count ' ' = 0) →
      wordCount e.text ≤ maxWords →
      ∀ x ∈ join_adjacent_go maxWords e l, wordCount x.text ≤ maxWords := by
  induction l with
  | nil =>
    intro e _ he x hx
    simp [join_adjacent_go] at hx
    subst hx
    exact he
  | cons f rest ih =>
    intro e hl he x hx
    have hf : f.text.data.count ' ' = 0 := hl f (by simp)
    by_cases h : e.speaker = f.speaker ∧ last_char_not_stop e.text = true ∧
        wordCount e.text < maxWords
    · rw [show join_adjacent_go maxWords e (f :: rest)
          = join_adjacent_go maxWords (join_two e f) rest from by
        simp [join_adjacent_go, h]] at hx
      refine ih (join_two e f) (fun y hy => hl y (List.mem_cons_of_mem _ hy))
        ?_ x hx
      have h1 : wordCount (pyStrip e.text) ≤ wordCount e.text :=
        wordCount_pyStrip_le _
      have h2 : wordCount (pyStrip f.text) = 1 := by
        rw [wordCount_eq_count]
        have := pyStrip_count_le ' ' f.text
        omega
      rw [show (join_two e f).text
          = pyStrip e.text ++ " " ++ pyStrip f.text from rfl,
        wordCount_append_space]
      have := h.2.2
      omega
    · rw [show join_adjacent_go maxWords e (f :: rest)
          = e :: join_adjacent_go maxWords f rest from by
        simp [join_adjacent_go, h]] at hx
      rcases List.mem_cons.mp hx with hx' | hx'
      · subst hx'
        exact he
      · refine ih f (fun y hy => hl y (List.mem_cons_of_mem _ hy)) ?_ x hx'
        rw [wordCount_eq_count, hf]
        omega

/-- **C1** (amended). The claim as stated is false (see the
counterexample); the bound does hold whenever every attributed interval's
text is a single word: for every positive `max_words_per_line`, if no
input element's text contains a space, then no line produced by
`join_adjacent_elements` has a word count (splitting on single spaces)
exceeding `max_words_per_line`. -/
theorem c1_join_pass_word_bound (maxWords : ℕ) (hmax : 1 ≤ maxWords)
    (l : List SubtitleElement)
    (hwords : ∀ e ∈ l, e.text.data.count ' ' = 0) :
    ∀ e ∈ join_adjacent_elements maxWords l, wordCount e.text ≤ maxWords := by
  cases l with
  | nil =>
    intro e he
    simp [join_adjacent_elements] at he
  | cons a rest =>
    refine join_go_wc_bound maxWords hmax rest a ?_ ?_
    · intro x hx
      exact hwords x (List.mem_cons_of_mem _ hx)
    · rw [wordCount_eq_count, hwords a (by simp)]
      omega

/-- **C1** (counterexample). Two same-speaker phrases of 6 and 3 words
satisfy the merge condition (6 < 7), and the merged line has 9 > 7
words: the join pass does produce lines whose word count exceeds a
positive `max_words_per_line`. -/
theorem c1_counterexample :
    ∃ e ∈ join_adjacent_elements 7
      [⟨none, 0, 1000, "a b c d e f", "S1", "srt"⟩,
       ⟨none, 1000, 2000, "g h i", "S1", "srt"⟩],
      7 < wordCount e.text := by
  decide

/-- Witness for `c1_join_pass_word_bound` at a concrete input. -/
theorem c1_witness :
    (1 ≤ 7 ∧
      ∀ e ∈ ([⟨none, 0, 1000, "Hello", "S1", "srt"⟩,
        ⟨none, 1000, 2000, "world.", "S1", "srt"⟩] : List SubtitleElement),
        e.text.data.count ' ' = 0) ∧
    ∀ e ∈ join_adjacent_elements 7
      [⟨none, 0, 1000, "Hello", "S1", "srt"⟩,
       ⟨none, 1000, 2000, "world.", "S1", "srt"⟩],
      wordCount e.text ≤ 7 :=
  ⟨⟨by omega, by decide⟩,
    c1_join_pass_word_bound 7 (by omega) _ (by decide)⟩

/-! ### Claim C3 — line indices after the merge pass -/

/-- The join loop never touches the `index` field (`join_two` only changes
`text` and `end_ms`), so the emitted index sequence is a subsequence of
the input one: the head index survives merges, and on close the cursor
moves to the next input element. -/
theorem join_go_map_index_sublist (maxWords : ℕ) (l : List SubtitleElement) :
    ∀ e : SubtitleElement,
      ((join_adjacent_go maxWords e l).map (fun x => x.index)).Sublist
        (e.index :: l.map (fun x => x.index)) := by
  induction l with
  | nil =>
    intro e
    simp [join_adjacent_go]
  | cons f rest ih =>
    intro e
    by_cases h : e.speaker = f.speaker ∧ last_char_not_stop e.text = true ∧
        wordCount e.text < maxWords
    · rw [show join_adjacent_go maxWords e (f :: rest)
          = join_adjacent_go maxWords (join_two e f) rest from by
        simp [join_adjacent_go, h]]
      have h1 := ih (join_two e f)
      have h2 : (join_two e f).index = e.index := rfl
      rw [h2] at h1
      refine h1.trans ?_
      exact (List.sublist_cons_self _ _).cons₂ _
    · rw [show join_adjacent_go maxWords e (f :: rest)
          = e :: join_adjacent_go maxWords f rest from by
        simp [join_adjacent_go, h]]
      simpa using (ih f).cons₂ e.index

theorem join_map_index_sublist (maxWords : ℕ) (l : List SubtitleElement) :
    ((join_adjacent_elements maxWords l).map (fun x => x.index)).Sublist
      (l.map (fun x => x.index)) := by
  cases l with
  | nil => simp [join_adjacent_elements]
  | cons e rest =>
    simpa using join_go_map_index_sublist maxWords rest e

/-- `add_element` stamps elements with consecutive indices starting from
the container's running index. -/
theorem foldl_add_element_map_index (es : List SubtitleElement) :
    ∀ s : Subtitles,
      ((es.foldl add_element s).elements.map (fun e => e.index))
        = s.elements.map (fun e => e.index)
          ++ (List.range' s.index es.length).map some := by
  induction es with
  | nil =>
    intro s
    simp
  | cons x es ih =>
    intro s
    rw [List.foldl_cons, ih]
    simp [add_element, List.range'_succ]

theorem add_elements_map_index (es : List SubtitleElement) :
    (add_elements es).elements.map (fun e => e.index)
      = (List.range es.length).map some := by
  rw [add_elements, foldl_add_element_map_index]
  simp [Subtitles.init, List.range_eq_range']

/-- **C3** (amended). The claim as stated is false (see the
counterexample): indices are assigned once by `add_element` — contiguous
`0, 1, 2, ...` over the *input* elements — and are never re-assigned by
`join_adjacent_elements`; after merges the surviving lines keep their
originally assigned indices, a strictly increasing subsequence of
`0, ..., n-1` that may have gaps. -/
theorem c3_indices_not_reassigned (es : List SubtitleElement) (maxWords : ℕ) :
    (add_elements es).elements.map (fun e => e.index)
        = (List.range es.length).map some ∧
    ((join_adjacent_elements maxWords (add_elements es).elements).map
        (fun e => e.index)).Sublist ((List.range es.length).map some) := by
  refine ⟨add_elements_map_index es, ?_⟩
  have h := join_map_index_sublist maxWords (add_elements es).elements
  rwa [add_elements_map_index es] at h

/-- **C3** (counterexample). Three elements are added (indices 0, 1, 2);
the first two merge, the third has another speaker: the emitted document
carries indices `[0, 2]`, not the contiguous `[0, 1]` the claim
requires. -/
theorem c3_counterexample :
    (join_adjacent_elements 7
        (add_elements
          [SubtitleElement.make 0 1000 "Hello" "S1",
           SubtitleElement.make 1000 2000 "world" "S1",
           SubtitleElement.make 2000 3000 "Bye" "S2"]).elements).map
      (fun e => e.index) = [some 0, some 2] ∧
    ([some 0, some 2] : List (Option ℕ)) ≠ (List.range 2).map some := by
  decide

/-! ### Claim C9 — isolation of the two render passes -/

/-- Changing every element's `display_mode` commutes with the join pass:
the merge condition reads only `speaker` and `text`, and `join_two`
preserves `display_mode`. -/
theorem join_go_map_display (maxWords : ℕ) (v : String)
    (l : List SubtitleElement) :
    ∀ e : SubtitleElement,
      join_adjacent_go maxWords { e with display_mode := v }
          (l.map (fun x => { x with display_mode := v }))
        = (join_adjacent_go maxWords e l).map
            (fun x => { x with display_mode := v }) := by
  induction l with
  | nil =>
    intro e
    simp [join_adjacent_go]
  | cons f rest ih =>
    intro e
    by_cases h : e.speaker = f.speaker ∧ last_char_not_stop e.text = true ∧
        wordCount e.text < maxWords
    · rw [show join_adjacent_go maxWords e (f :: rest)
          = join_adjacent_go maxWords (join_two e f) rest from by
        simp [join_adjacent_go, h]]
      rw [List.map_cons]
      rw [show join_adjacent_go maxWords { e with display_mode := v }
          ({ f with display_mode := v }
            :: rest.map (fun x => { x with display_mode := v }))
          = join_adjacent_go maxWords
              (join_two { e with display_mode := v } { f with display_mode := v })
              (rest.map (fun x => { x with display_mode := v })) from by
        simp [join_adjacent_go, h]]
      have hjt : join_two { e with display_mode := v } { f with display_mode := v }
          = { join_two e f with display_mode := v } := rfl
      rw [hjt]
      exact ih (join_two e f)
    · rw [show join_adjacent_go maxWords e (f :: rest)
          = e :: join_adjacent_go maxWords f rest from by
        simp [join_adjacent_go, h]]
      rw [List.map_cons]
      rw [show join_adjacent_go maxWords { e with display_mode := v }
          ({ f with display_mode := v }
            :: rest.map (fun x => { x with display_mode := v }))
          = { e with display_mode := v }
            :: join_adjacent_go maxWords { f with display_mode := v }
                (rest.map (fun x => { x with display_mode := v })) from by
        simp [join_adjacent_go, h]]
      rw [List.map_cons, ih f]

theorem join_map_display (maxWords : ℕ) (v : String)
    (l : List SubtitleElement) :
    join_adjacent_elements maxWords
        (l.map (fun x => { x with display_mode := v }))
      = (join_adjacent_elements maxWords l).map
          (fun x => { x with display_mode := v }) := by
  cases l with
  | nil => simp [join_adjacent_elements]
  | cons e rest =>
    simpa [join_adjacent_elements] using join_go_map_display maxWords v rest e

/-- **C9**. Each render pass runs on its own copy of the attributed
sequence: the srt document is the join of the original elements, and the
transcribeMe document is the join of the original elements as well (only
re-tagged with the transcribeMe display mode) — the srt pass's
segmentation does not feed into the transcribeMe pass's input. -/
theorem c9_independent_render_passes (s : Subtitles) (maxWords : ℕ) :
    (generate_diarized_subtitles s maxWords).1.elements
        = join_adjacent_elements maxWords s.elements ∧
    (generate_diarized_subtitles s maxWords).2.elements
        = (join_adjacent_elements maxWords s.elements).map
            (fun e => { e with display_mode := "transcribeMe" }) := by
  constructor
  · rfl
  · show join_adjacent_elements maxWords
        (s.elements.map (fun e => { e with display_mode := "transcribeMe" })) = _
    exact join_map_display maxWords "transcribeMe" s.elements

/-! ### Claim C4 — determinism and tie-breaking of speaker attribution -/

theorem getLast?_map_getD {α β : Type} (f : α → β) (a : α) (m : List α) :
    ∀ z : β, (((a :: m).getLast?).map f).getD z = ((m.getLast?).map f).getD (f a) := by
  induction m generalizing a with
  | nil => intro z; simp
  | cons b m' ih =>
    intro z
    rw [List.getLast?_cons_cons]
    rw [ih b z, ih b (f a)]

/-- A fold that overwrites its accumulator at every list entry satisfying
`p` returns the image of the last satisfying entry (or the initial
accumulator if none satisfies `p`). -/
theorem foldl_overwrite_eq_getLast {α : Type} (p : α → Prop) [DecidablePred p]
    (f : α → String) (l : List α) :
    ∀ acc : String,
      l.foldl (fun acc d => if p d then f d else acc) acc
        = (((l.filter (fun d => decide (p d))).getLast?).map f).getD acc := by
  induction l with
  | nil => intro acc; simp
  | cons d ds ih =>
    intro acc
    by_cases h : p d
    · rw [List.foldl_cons, if_pos h, ih (f d),
        List.filter_cons_of_pos (by simpa using h), getLast?_map_getD]
    · rw [List.foldl_cons, if_neg h, ih acc,
        List.filter_cons_of_neg (by simpa using h)]

/-- **C4** (amended). Attribution is a pure function of the diarization
list and the transcript interval — hence deterministic — but on ties the
diarization line encountered *last* wins, not the first: the assigned
speaker is exactly the speaker of the last diarization row containing the
transcript interval (and `""` when no row contains it), because each
`.loc` assignment in file order overwrites earlier ones. -/
theorem c4_attribution_last_wins (diar : List DiarRow) (t : TranscriptRow) :
    assign_speaker diar t
      = (((diar.filter (fun d => decide (contains_row d t))).getLast?).map
          (fun d => d.speaker)).getD "" :=
  foldl_overwrite_eq_getLast (fun d => contains_row d t) (fun d => d.speaker)
    diar ""

/-- **C4** (counterexample). Two diarization intervals both contain the
transcript interval; the claim predicts the first (`"A"`) wins, but the
code assigns the last (`"B"`). -/
theorem c4_counterexample :
    assign_speaker [⟨0, 100, "A"⟩, ⟨0, 100, "B"⟩] ⟨10, 20, "x"⟩ = "B" ∧
      ("B" : String) ≠ "A" := by
  decide

/-! ### Claim C2 — the fill pass and null speakers -/

theorem ffill_aux_mem (l : List (Option String)) :
    ∀ (last y : Option String), y ∈ ffill_aux last l → y = last ∨ y ∈ l := by
  induction l with
  | nil =>
    intro last y h
    simp [ffill_aux] at h
  | cons x xs ih =>
    intro last y h
    cases x with
    | none =>
      rcases List.mem_cons.mp h with h' | h'
      · exact Or.inl h'
      · rcases ih last y h' with h'' | h''
        · exact Or.inl h''
        · exact Or.inr (List.mem_cons_of_mem _ h'')
    | some s =>
      rcases List.mem_cons.mp h with h' | h'
      · exact Or.inr (by simp [h'])
      · rcases ih (some s) y h' with h'' | h''
        · exact Or.inr (by simp [h''])
        · exact Or.inr (List.mem_cons_of_mem _ h'')

theorem ffill_aux_some_acc (l : List (Option String)) :
    ∀ (s : String) (y : Option String), y ∈ ffill_aux (some s) l →
      ∃ v, y = some v := by
  induction l with
  | nil =>
    intro s y h
    simp [ffill_aux] at h
  | cons x xs ih =>
    intro s y h
    cases x with
    | none =>
      rcases List.mem_cons.mp h with h' | h'
      · exact ⟨s, h'⟩
      · exact ih s y h'
    | some u =>
      rcases List.mem_cons.mp h with h' | h'
      · exact ⟨u, h'⟩
      · exact ih u y h'

theorem getLast?_cons_getD {α : Type} (a : α) (m : List α) :
    ∀ z : α, ((a :: m).getLast?).getD z = (m.getLast?).getD a := by
  induction m generalizing a with
  | nil => intro z; simp
  | cons b m' ih =>
    intro z
    rw [List.getLast?_cons_cons]
    rw [ih b z, ih b a]

/-- If the forward fill ends on a missing value, then the initial
accumulator was missing and so was every input entry. -/
theorem ffill_aux_getLastD_none (l : List (Option String)) :
    ∀ last : Option String,
      ((ffill_aux last l).getLast?).getD last = none →
      last = none ∧ ∀ x ∈ l, x = none := by
  induction l with
  | nil =>
    intro last h
    simp [ffill_aux] at h
    exact ⟨h, by simp⟩
  | cons x xs ih =>
    intro last h
    cases x with
    | none =>
      rw [show ffill_aux last (none :: xs) = last :: ffill_aux last xs from rfl,
        getLast?_cons_getD] at h
      obtain ⟨h1, h2⟩ := ih last h
      refine ⟨h1, ?_⟩
      intro x hx
      rcases List.mem_cons.mp hx with h' | h'
      · exact h'
      · exact h2 x h'
    | some s =>
      rw [show ffill_aux last (some s :: xs)
          = some s :: ffill_aux (some s) xs from rfl,
        getLast?_cons_getD] at h
      obtain ⟨h1, _⟩ := ih (some s) h
      exact absurd h1 (by simp)

/-- If the column has at least one present value, `ffill` followed by
`bfill` leaves no missing value. -/
theorem process_no_none (l : List (Option String))
    (h : ∃ x ∈ l, x ≠ none) :
    ∀ y ∈ bfill (ffill l), ∃ v, y = some v := by
  have h1 : ((ffill_aux none l).getLast?).getD none ≠ none := by
    intro hc
    obtain ⟨_, h2⟩ := ffill_aux_getLastD_none l none hc
    obtain ⟨x, hx, hxne⟩ := h
    exact hxne (h2 x hx)
  obtain ⟨v0, hv0⟩ : ∃ v, (ffill_aux none l).getLast? = some (some v) := by
    cases hg : (ffill_aux none l).getLast? with
    | none => rw [hg] at h1; simp at h1
    | some o =>
      cases o with
      | none => rw [hg] at h1; simp at h1
      | some v => exact ⟨v, rfl⟩
  intro y hy
  rw [show bfill (ffill l) = (ffill_aux none (ffill_aux none l).reverse).reverse
      from rfl, List.mem_reverse] at hy
  have hrev : (ffill_aux none l).reverse.head? = some (some v0) := by
    rw [List.head?_reverse]
    exact hv0
  cases hr : (ffill_aux none l).reverse with
  | nil => rw [hr] at hrev; simp at hrev
  | cons a m =>
    rw [hr] at hrev
    simp at hrev
    rw [hr, hrev] at hy
    rw [show ffill_aux none (some v0 :: m)
        = some v0 :: ffill_aux (some v0) m from rfl] at hy
    rcases List.mem_cons.mp hy with h' | h'
    · exact ⟨v0, h'⟩
    · exact ffill_aux_some_acc m v0 y h'

/-- Every value present after `ffill` and `bfill` was present in the
input column. -/
theorem process_mem (l : List (Option String)) (y : Option String)
    (hy : y ∈ bfill (ffill l)) : y = none ∨ y ∈ l := by
  rw [show bfill (ffill l) = (ffill_aux none (ffill_aux none l).reverse).reverse
      from rfl, List.mem_reverse] at hy
  rcases ffill_aux_mem _ none y hy with h | h
  · exact Or.inl h
  · rw [List.mem_reverse] at h
    rcases ffill_aux_mem _ none y h with h' | h'
    · exact Or.inl h'
    · exact Or.inr h'

/-- **C2** (amended). The claim as stated is false (see the
counterexample): when no transcript interval is contained in any
diarization interval (containment, not mere overlap, is the assignment
criterion), every speaker stays `NaN` after the fill passes.  The
fallback does work whenever at least one transcript interval receives a
nonempty speaker from the containment pass: then after
`process_combined_transcript_diarization` every row's speaker is a
non-null, nonempty string. -/
theorem c2_speakers_filled (ts : List TranscriptRow) (diar : List DiarRow)
    (h : ∃ t ∈ ts, assign_speaker diar t ≠ "") :
    ∀ y ∈ process_speakers (combine_transcript_diarization ts diar),
      ∃ s, y = some s ∧ s ≠ "" := by
  have hcol : speakers_column (combine_transcript_diarization ts diar)
      = ts.map (fun t => if assign_speaker diar t = "" then none
          else some (assign_speaker diar t)) := by
    simp [speakers_column, combine_transcript_diarization]
  have hmem : ∃ x ∈ speakers_column (combine_transcript_diarization ts diar),
      x ≠ none := by
    obtain ⟨t, ht, hne⟩ := h
    refine ⟨some (assign_speaker diar t), ?_, by simp⟩
    rw [hcol]
    rw [List.mem_map]
    exact ⟨t, ht, by rw [if_neg hne]⟩
  intro y hy
  obtain ⟨v, hv⟩ := process_no_none _ hmem y hy
  refine ⟨v, hv, ?_⟩
  rcases process_mem _ y hy with h' | h'
  · rw [hv] at h'
    simp at h'
  · rw [hcol] at h'
    rw [List.mem_map] at h'
    obtain ⟨t, _, hcond⟩ := h'
    by_cases hz : assign_speaker diar t = ""
    · rw [if_pos hz] at hcond
      rw [hv] at hcond
      simp at hcond
    · rw [if_neg hz] at hcond
      rw [hv] at hcond
      have hva : assign_speaker diar t = v := by
        simpa using hcond
      intro hveq
      exact hz (by rw [hva, hveq])

/-- **C2** (counterexample). A transcript interval that merely overlaps
— but is not contained in — the only diarization interval gets speaker
`""`, which `process_combined_transcript_diarization` turns into `NaN`
and the fill passes cannot replace: the attributed speaker is null. -/
theorem c2_counterexample :
    process_speakers (combine_transcript_diarization
        [⟨0, 1000, "hi"⟩] [⟨100, 900, "A"⟩]) = [none] := by
  decide

/-- Witness for `c2_speakers_filled` at a concrete input. -/
theorem c2_witness :
    (∃ t ∈ ([⟨0, 1000, "hi"⟩, ⟨1000, 2000, "yo"⟩] : List TranscriptRow),
        assign_speaker [⟨0, 1500, "A"⟩] t ≠ "") ∧
    ∀ y ∈ process_speakers (combine_transcript_diarization
        [⟨0, 1000, "hi"⟩, ⟨1000, 2000, "yo"⟩] [⟨0, 1500, "A"⟩]),
      ∃ s, y = some s ∧ s ≠ "" :=
  ⟨by decide, c2_speakers_filled _ _ (by decide)⟩

/-! ### Claim C5 — attribution of fully contained intervals -/

theorem mem_of_getLast?_eq {α : Type} {l : List α} {a : α}
    (h : l.getLast? = some a) : a ∈ l := by
  obtain ⟨l', rfl⟩ := List.getLast?_eq_some_iff.mp h
  simp

theorem ffill_aux_getElem?_some (l : List (Option String)) :
    ∀ (last : Option String) (i : ℕ) (s : String),
      l[i]? = some (some s) → (ffill_aux last l)[i]? = some (some s) := by
  induction l with
  | nil =>
    intro last i s h
    simp at h
  | cons x xs ih =>
    intro last i s h
    cases i with
    | zero =>
      rw [List.getElem?_cons_zero] at h
      cases x with
      | none => simp at h
      | some u =>
        have hu : u = s := by simpa using h
        subst hu
        rw [show ffill_aux last (some u :: xs)
            = some u :: ffill_aux (some u) xs from rfl,
          List.getElem?_cons_zero]
    | succ n =>
      rw [List.getElem?_cons_succ] at h
      cases x with
      | none =>
        rw [show ffill_aux last (none :: xs) = last :: ffill_aux last xs
            from rfl, List.getElem?_cons_succ]
        exact ih last n s h
      | some u =>
        rw [show ffill_aux last (some u :: xs)
            = some u :: ffill_aux (some u) xs from rfl,
          List.getElem?_cons_succ]
        exact ih (some u) n s h

theorem ffill_aux_length (l : List (Option String)) :
    ∀ last : Option String, (ffill_aux last l).length = l.length := by
  induction l with
  | nil => intro last; rfl
  | cons x xs ih =>
    intro last
    cases x with
    | none =>
      rw [show ffill_aux last (none :: xs) = last :: ffill_aux last xs
          from rfl]
      simp [ih]
    | some u =>
      rw [show ffill_aux last (some u :: xs)
          = some u :: ffill_aux (some u) xs from rfl]
      simp [ih]

theorem bfill_getElem?_some (l : List (Option String)) (i : ℕ) (s : String)
    (h : l[i]? = some (some s)) : (bfill l)[i]? = some (some s) := by
  have hi : i < l.length := by
    by_contra hge
    rw [List.getElem?_eq_none (Nat.le_of_not_lt hge)] at h
    exact absurd h (by simp)
  have hrev : l.reverse[l.length - 1 - i]? = some (some s) := by
    have hj : l.length - 1 - i < l.length := by omega
    rw [List.getElem?_reverse hj]
    have heq : l.length - 1 - (l.length - 1 - i) = i := by omega
    rw [heq]
    exact h
  have hmid : (ffill_aux none l.reverse)[l.length - 1 - i]? = some (some s) :=
    ffill_aux_getElem?_some l.reverse none (l.length - 1 - i) s hrev
  have hlen : (ffill_aux none l.reverse).length = l.length := by
    rw [ffill_aux_length, List.length_reverse]
  show (ffill_aux none l.reverse).reverse[i]? = some (some s)
  rw [List.getElem?_reverse (by omega)]
  rw [hlen]
  exact hmid

/-- Two diarization intervals do not overlap: one ends before the other
starts. -/
def nonoverlap (d1 d2 : DiarRow) : Prop :=
  d1.end_ms ≤ d2.start_ms ∨ d2.end_ms ≤ d1.start_ms

/-- **C5** (amended). For every diarization timeline of pairwise
non-overlapping intervals with pairwise distinct *nonempty* speakers,
every transcript interval (with `start_ms < end_ms`) lying entirely
within one diarization interval is attributed that interval's speaker by
the combine/process pipeline.  Without the nonemptiness restriction the
claim fails: an empty-string speaker label is erased to `NaN` by
`process_combined_transcript_diarization` (see the counterexample). -/
theorem c5_contained_interval_attribution
    (ts : List TranscriptRow) (diar : List DiarRow)
    (hpair : diar.Pairwise nonoverlap)
    (_hdist : (diar.map (fun d => d.speaker)).Nodup)
    (hspk : ∀ d ∈ diar, d.speaker ≠ "")
    (i : ℕ) (t : TranscriptRow) (hti : ts[i]? = some t)
    (hlen : t.start_ms < t.end_ms)
    (d : DiarRow) (hd : d ∈ diar) (hc : contains_row d t) :
    (process_speakers (combine_transcript_diarization ts diar))[i]?
      = some (some d.speaker) := by
  have huniq : ∀ d' ∈ diar, contains_row d' t → d' = d := by
    intro d' hd' hc'
    by_contra hne
    have hsym : Symmetric nonoverlap := by
      intro a b hab
      rcases hab with hab | hab
      · exact Or.inr hab
      · exact Or.inl hab
    have hno : nonoverlap d' d := List.Pairwise.forall hsym hpair hd' hd hne
    rcases hc with ⟨hc1, hc2⟩
    rcases hc' with ⟨hc1', hc2'⟩
    rcases hno with hno | hno <;> omega
  have hassign : assign_speaker diar t = d.speaker := by
    rw [show assign_speaker diar t
        = diar.foldl (fun acc d => if contains_row d t then d.speaker else acc)
          "" from rfl,
      foldl_overwrite_eq_getLast (fun d' => contains_row d' t)
        (fun d' => d'.speaker) diar ""]
    have hmemf : d ∈ diar.filter (fun d' => decide (contains_row d' t)) :=
      List.mem_filter.mpr ⟨hd, by simpa using hc⟩
    obtain ⟨x, hx⟩ :
        ∃ x, (diar.filter (fun d' => decide (contains_row d' t))).getLast?
          = some x := by
      cases hg : (diar.filter (fun d' => decide (contains_row d' t))).getLast? with
      | none =>
        exact absurd (List.getLast?_eq_none_iff.mp hg)
          (List.ne_nil_of_mem hmemf)
      | some x => exact ⟨x, rfl⟩
    have hxmem := mem_of_getLast?_eq hx
    have hxd : x = d :=
      huniq x (List.mem_filter.mp hxmem).1
        (by simpa using (List.mem_filter.mp hxmem).2)
    rw [hx, hxd]
    rfl
  have hcol : (speakers_column (combine_transcript_diarization ts diar))[i]?
      = some (some d.speaker) := by
    rw [show speakers_column (combine_transcript_diarization ts diar)
        = ts.map (fun t' => if assign_speaker diar t' = "" then none
            else some (assign_speaker diar t')) from by
      simp [speakers_column, combine_transcript_diarization]]
    rw [List.getElem?_map, hti]
    simp [hassign, hspk d hd]
  exact bfill_getElem?_some _ i _ (ffill_aux_getElem?_some _ none i _ hcol)

/-- **C5** (counterexample). The transcript interval `[10, 20]` lies
entirely within the sole diarization interval `[0, 100]` (trivially
pairwise non-overlapping with pairwise distinct speakers), but that
interval's speaker is the empty string: the pipeline attributes `NaN`
(modelled `none`), not that diarization interval's speaker `""`. -/
theorem c5_counterexample :
    process_speakers (combine_transcript_diarization
        [⟨10, 20, "hi"⟩] [⟨0, 100, ""⟩]) = [none] ∧
    (none : Option String) ≠ some "" := by
  decide

/-- Witness for `c5_contained_interval_attribution` at a concrete
input. -/
theorem c5_witness :
    (process_speakers (combine_transcript_diarization
        [⟨10, 20, "hi"⟩] [⟨0, 100, "A"⟩]))[0]? = some (some "A") :=
  c5_contained_interval_attribution [⟨10, 20, "hi"⟩] [⟨0, 100, "A"⟩]
    (by simp) (by simp) (by decide) 0 ⟨10, 20, "hi"⟩ rfl (by decide)
    ⟨0, 100, "A"⟩ (by simp) (by decide)

/-! ### Claim C10 — sentence-level segmentation of `merge_transcript_json` -/

theorem sentence_groups_aux_join (l : List TranscriptRow) :
    ∀ cur : List TranscriptRow,
      (sentence_groups_aux cur l).flatten = cur.reverse ++ l := by
  induction l with
  | nil =>
    intro cur
    by_cases h : cur.isEmpty
    · rw [show sentence_groups_aux cur [] = [] from by
        simp [sentence_groups_aux, h]]
      simp [List.isEmpty_iff.mp h]
    · rw [show sentence_groups_aux cur [] = [cur.reverse] from by
        simp [sentence_groups_aux, h]]
      simp
  | cons r rest ih =>
    intro cur
    by_cases h : ends_with_stop r.text
    · rw [show sentence_groups_aux cur (r :: rest)
          = (cur.reverse ++ [r]) :: sentence_groups_aux [] rest from by
        simp [sentence_groups_aux, h]]
      rw [List.flatten_cons, ih []]
      simp
    · rw [show sentence_groups_aux cur (r :: rest)
          = sentence_groups_aux (r :: cur) rest from by
        simp [sentence_groups_aux, h]]
      rw [ih (r :: cur)]
      simp

theorem sentence_groups_aux_ne_nil (l : List TranscriptRow) :
    ∀ cur : List TranscriptRow, ∀ g ∈ sentence_groups_aux cur l, g ≠ [] := by
  induction l with
  | nil =>
    intro cur g hg
    by_cases h : cur.isEmpty
    · rw [show sentence_groups_aux cur [] = [] from by
        simp [sentence_groups_aux, h]] at hg
      simp at hg
    · rw [show sentence_groups_aux cur [] = [cur.reverse] from by
        simp [sentence_groups_aux, h]] at hg
      simp at hg
      subst hg
      simpa [List.isEmpty_iff] using h
  | cons r rest ih =>
    intro cur g hg
    by_cases h : ends_with_stop r.text
    · rw [show sentence_groups_aux cur (r :: rest)
          = (cur.reverse ++ [r]) :: sentence_groups_aux [] rest from by
        simp [sentence_groups_aux, h]] at hg
      rcases List.mem_cons.mp hg with hg' | hg'
      · subst hg'
        simp
      · exact ih [] g hg'
    · rw [show sentence_groups_aux cur (r :: rest)
          = sentence_groups_aux (r :: cur) rest from by
        simp [sentence_groups_aux, h]] at hg
      exact ih (r :: cur) g hg

/-- Inside each emitted group, every row before the last does not end
with a sentence terminator (the running group only accumulates
non-terminator rows; a terminator row closes the group as its last
element). -/
theorem sentence_groups_aux_dropLast_no_stop (l : List TranscriptRow) :
    ∀ cur : List TranscriptRow,
      (∀ x ∈ cur, ends_with_stop x.text = false) →
      ∀ g ∈ sentence_groups_aux cur l, ∀ r ∈ g.dropLast,
        ends_with_stop r.text = false := by
  induction l with
  | nil =>
    intro cur hcur g hg r hr
    by_cases h : cur.isEmpty
    · rw [show sentence_groups_aux cur [] = [] from by
        simp [sentence_groups_aux, h]] at hg
      simp at hg
    · rw [show sentence_groups_aux cur [] = [cur.reverse] from by
        simp [sentence_groups_aux, h]] at hg
      simp at hg
      subst hg
      exact hcur r (List.mem_reverse.mp (List.dropLast_sublist _ |>.mem hr))
  | cons x rest ih =>
    intro cur hcur g hg r hr
    by_cases h : ends_with_stop x.text
    · rw [show sentence_groups_aux cur (x :: rest)
          = (cur.reverse ++ [x]) :: sentence_groups_aux [] rest from by
        simp [sentence_groups_aux, h]] at hg
      rcases List.mem_cons.mp hg with hg' | hg'
      · subst hg'
        rw [List.dropLast_concat] at hr
        exact hcur r (List.mem_reverse.mp hr)
      · exact ih [] (by simp) g hg' r hr
    · rw [show sentence_groups_aux cur (x :: rest)
          = sentence_groups_aux (x :: cur) rest from by
        simp [sentence_groups_aux, h]] at hg
      refine ih (x :: cur) ?_ g hg r hr
      intro y hy
      rcases List.mem_cons.mp hy with hy' | hy'
      · subst hy'
        simpa using h
      · exact hcur y hy'

/-- Every group except possibly the last one ends with a terminator row:
a group is only closed before the end of the input when a terminator row
arrives, and that row becomes its last element. -/
theorem sentence_groups_aux_dropLast_ends_stop (l : List TranscriptRow) :
    ∀ cur : List TranscriptRow,
      ∀ g ∈ (sentence_groups_aux cur l).dropLast,
        ∃ r, g.getLast? = some r ∧ ends_with_stop r.text = true := by
  induction l with
  | nil =>
    intro cur g hg
    by_cases h : cur.isEmpty
    · rw [show sentence_groups_aux cur [] = [] from by
        simp [sentence_groups_aux, h]] at hg
      simp at hg
    · rw [show sentence_groups_aux cur [] = [cur.reverse] from by
        simp [sentence_groups_aux, h]] at hg
      simp at hg
  | cons x rest ih =>
    intro cur g hg
    by_cases h : ends_with_stop x.text
    · rw [show sentence_groups_aux cur (x :: rest)
          = (cur.reverse ++ [x]) :: sentence_groups_aux [] rest from by
        simp [sentence_groups_aux, h]] at hg
      cases hrest : sentence_groups_aux [] rest with
      | nil =>
        rw [hrest] at hg
        simp at hg
      | cons g1 gs =>
        rw [hrest] at hg
        rw [show ((cur.reverse ++ [x]) :: g1 :: gs).dropLast
            = (cur.reverse ++ [x]) :: (g1 :: gs).dropLast from rfl] at hg
        rcases List.mem_cons.mp hg with hg' | hg'
        · subst hg'
          exact ⟨x, List.getLast?_concat _, h⟩
        · rw [← hrest] at hg'
          exact ih [] g hg'
    · rw [show sentence_groups_aux cur (x :: rest)
          = sentence_groups_aux (x :: cur) rest from by
        simp [sentence_groups_aux, h]] at hg
      exact ih (x :: cur) g hg

/-- **C10**. `merge_transcript_json` emits one segment per sentence
group: the groups partition the parsed transcript rows in order, each
group is nonempty, no row before a group's last ends with a sentence
terminator (so each group is a maximal such run), every group except
possibly the final one ends with a terminator row, and each emitted
segment's text is the space-join of its group's word texts. -/
theorem c10_sentence_segmentation (rows : List TranscriptRow) :
    (merge_transcript_segments rows).map (fun seg => seg.text)
        = (sentence_groups rows).map
            (fun g => String.intercalate " " (g.map (fun r => r.text))) ∧
    (sentence_groups rows).flatten = rows ∧
    (∀ g ∈ sentence_groups rows, g ≠ [] ∧
      ∀ r ∈ g.dropLast, ends_with_stop r.text = false) ∧
    (∀ g ∈ (sentence_groups rows).dropLast,
      ∃ r, g.getLast? = some r ∧ ends_with_stop r.text = true) := by
  refine ⟨?_, ?_, ?_, ?_⟩
  · simp [merge_transcript_segments, segment_of_group]
  · simpa using sentence_groups_aux_join rows []
  · intro g hg
    exact ⟨sentence_groups_aux_ne_nil rows [] g hg,
      sentence_groups_aux_dropLast_no_stop rows [] (by simp) g hg⟩
  · exact sentence_groups_aux_dropLast_ends_stop rows []

/-! ### Claim C6 — empty transcript input -/

/-- **C6**. An empty transcript (`segments: []`) makes
`process_whisper_transcript` return the empty string, which
`get_transcript_df` splits into the single empty line `[""]`; that line
yields one field instead of three, so `pd.DataFrame(data, columns=
["start", "end", "text"])` raises (`none` in the model) instead of
producing an empty, valid, zero-line document. -/
theorem c6_empty_transcript_raises :
    get_transcript_df ⟨[]⟩ = none := by
  rfl

/-! ### Claim C7 — timecode round trip -/

theorem floor_ratCast_nat_div (a b : ℕ) :
    ⌊(a : ℚ) / (b : ℚ)⌋ = ((a / b : ℕ) : ℤ) := by
  rw [Rat.floor_natCast_div_natCast a b]
  exact (Int.natCast_div a b).symm

theorem hms_h_eq (ms : ℕ) : hms_h ms = ((ms / 3600000 : ℕ) : ℤ) := by
  unfold hms_h
  rw [div_div]
  rw [show ((1000 : ℚ) * 3600) = ((3600000 : ℕ) : ℚ) by norm_num]
  exact floor_ratCast_nat_div ms 3600000

theorem hms_m_eq (ms : ℕ) : hms_m ms = ((ms % 3600000 / 60000 : ℕ) : ℤ) := by
  unfold hms_m
  have hinner : ⌊(ms : ℚ) / 1000 / 3600⌋ = ((ms / 3600000 : ℕ) : ℤ) :=
    hms_h_eq ms
  rw [hinner]
  have hsub : (ms : ℚ) / 1000 - 3600 * (((ms / 3600000 : ℕ) : ℤ) : ℚ)
      = ((ms % 3600000 : ℕ) : ℚ) / 1000 := by
    have hdm : 3600000 * (ms / 3600000) + ms % 3600000 = ms :=
      Nat.div_add_mod ms 3600000
    have hq : (3600000 : ℚ) * ((ms / 3600000 : ℕ) : ℚ)
        + ((ms % 3600000 : ℕ) : ℚ) = (ms : ℚ) := by
      exact_mod_cast hdm
    rw [Int.cast_natCast]
    linarith
  rw [hsub, div_div]
  rw [show ((1000 : ℚ) * 60) = ((60000 : ℕ) : ℚ) by norm_num]
  exact floor_ratCast_nat_div _ 60000

theorem hms_s_eq (ms : ℕ) : hms_s ms = ((ms % 60000 / 1000 : ℕ) : ℤ) := by
  unfold hms_s
  have hinner : ⌊(ms : ℚ) / 1000 / 60⌋ = ((ms / 60000 : ℕ) : ℤ) := by
    rw [div_div]
    rw [show ((1000 : ℚ) * 60) = ((60000 : ℕ) : ℚ) by norm_num]
    exact floor_ratCast_nat_div ms 60000
  rw [hinner]
  have hsub : (ms : ℚ) / 1000 - 60 * (((ms / 60000 : ℕ) : ℤ) : ℚ)
      = ((ms % 60000 : ℕ) : ℚ) / 1000 := by
    have hdm : 60000 * (ms / 60000) + ms % 60000 = ms :=
      Nat.div_add_mod ms 60000
    have hq : (60000 : ℚ) * ((ms / 60000 : ℕ) : ℚ)
        + ((ms % 60000 : ℕ) : ℚ) = (ms : ℚ) := by
      exact_mod_cast hdm
    rw [Int.cast_natCast]
    linarith
  rw [hsub]
  rw [show ((1000 : ℚ)) = ((1000 : ℕ) : ℚ) by norm_num]
  exact floor_ratCast_nat_div _ 1000

/-- **C7**. For `0 ≤ ms < 360000000`, the four fields computed by
`ms_to_HMSms` satisfy the inverse formula
`h*3600000 + m*60000 + s*1000 + mil = ms` exactly, and each field lies in
its fixed-width range (`h` two digits, `m`, `s` < 60, `mil` three
digits), so the fields — and hence `ms` — are recovered exactly from the
fixed-format `HH:MM:SS<delim>mmm` string. -/
theorem c7_timecode_roundtrip (ms : ℕ) (hms : ms < 360000000) :
    hms_h ms * 3600000 + hms_m ms * 60000 + hms_s ms * 1000 + hms_mil ms
        = (ms : ℤ) ∧
    0 ≤ hms_h ms ∧ hms_h ms < 100 ∧ 0 ≤ hms_m ms ∧ hms_m ms < 60 ∧
    0 ≤ hms_s ms ∧ hms_s ms < 60 ∧ 0 ≤ hms_mil ms ∧ hms_mil ms < 1000 := by
  rw [hms_h_eq, hms_m_eq, hms_s_eq]
  unfold hms_mil
  refine ⟨?_, ?_, ?_, ?_, ?_, ?_, ?_, ?_, ?_⟩ <;> omega

/-- Witness for `c7_timecode_roundtrip` at `ms = 3723456`
(1 h 2 min 3 s 456 ms). -/
theorem c7_witness :
    (3723456 : ℕ) < 360000000 ∧
    hms_h 3723456 * 3600000 + hms_m 3723456 * 60000 + hms_s 3723456 * 1000
        + hms_mil 3723456 = (3723456 : ℤ) :=
  ⟨by norm_num, (c7_timecode_roundtrip 3723456 (by norm_num)).1⟩

/-! ### Claim C8 — millisecond conversion truncates -/

/-- **C8**. For every nonnegative rational second timestamp, the parser's
conversion `int(start * 1000)` equals `⌊seconds * 1000⌋`: truncation
toward zero coincides with the floor on nonnegative values, and is never
rounding to the nearest millisecond. -/
theorem c8_truncation_is_floor (sec : ℚ) (h : 0 ≤ sec) :
    seconds_to_ms sec = ⌊sec * 1000⌋ := by
  unfold seconds_to_ms pyInt
  rw [if_pos (mul_nonneg h (by norm_num))]

/-- Witness for `c8_truncation_is_floor` at `sec = 3/2000` (1.5 ms,
which floors to 1 rather than rounding to 2). -/
theorem c8_witness :
    (0 : ℚ) ≤ 3 / 2000 ∧ seconds_to_ms (3 / 2000) = ⌊(3 / 2000 : ℚ) * 1000⌋ ∧
      (⌊(3 / 2000 : ℚ) * 1000⌋ = 1 ∧ (1 : ℤ) ≠ 2) :=
  ⟨by norm_num, c8_truncation_is_floor (3 / 2000) (by norm_num),
    by norm_num [Int.floor_eq_iff], by norm_num⟩

end WhisperNote
